import Mathlib

/-!
# Verification of the `debomb` archive-bomb tool

Shallow embedding of the path-handling core of the `debomb` repository
(`src/debomb.py`, `src/debomber.py`) and proofs about it.

Paths are modelled as `String`s (lists of characters) and the Python
`os.path` helpers used by the code (`join`, `split`, `commonprefix`,
`splitext`, `normpath`, `abspath`) are translated character-for-character
from their POSIX (`posixpath`) semantics.  The filesystem, where needed,
is modelled explicitly as a set of file paths and a set of directory
paths, with `shutil.move` restricted to the plain-rename behaviour the
code relies on.
-/

set_option autoImplicit false

namespace Debomb

/-! ## String and path primitives -/

/-- Translation of Python `str.startswith`: `p` is a leading substring of `s`. -/
def strStartsWith (s p : String) : Bool := p.data.isPrefixOf s.data

/-- Translation of Python `str.endswith`: `p` is a trailing substring of `s`. -/
def strEndsWith (s p : String) : Bool := p.data.isSuffixOf s.data

/-- Translation of `posixpath.join(a, b)`: if `b` starts with the separator it
replaces the accumulated path; otherwise it is appended to `a`, inserting a
`/` unless `a` is empty or already ends with one. -/
def pjoin (a b : String) : String :=
  if strStartsWith b "/" then b
  else if a = "" || strEndsWith a "/" then a ++ b
  else a ++ "/" ++ b

/-- Longest common prefix of two lists, element by element. -/
def lcpList {α : Type} [DecidableEq α] : List α → List α → List α
  | [], _ => []
  | _, [] => []
  | a :: as, b :: bs => if a = b then a :: lcpList as bs else []

/-- Translation of `os.path.commonprefix`: the longest common **string**
prefix of a list of paths, character by character (the CPython `min`/`max`
loop computes exactly the character-wise longest common prefix of all the
strings, which is this fold). -/
def commonPre (m : List String) : String :=
  match m with
  | [] => ""
  | x :: xs => String.mk (xs.foldl (fun a b => lcpList a b.data) x.data)

/-- The tail component of `os.path.split(p)`: everything after the last `/`,
or `p` itself when `p` contains no `/`. -/
def splitTail (p : String) : String :=
  String.mk ((p.data.reverse.takeWhile (fun c => c != '/')).reverse)

/-! ## `Debomber._outside_root` and `Debomber.rebase_paths` (src/debomber.py) -/

/-- `Debomber._outside_root` from `src/debomber.py`:
`os.path.join(self.root, fn) == fn`. -/
def outside_root (root fn : String) : Bool := pjoin root fn == fn

/-- The `while True` stripping loop inside `Debomber.rebase_paths`
(`src/debomber.py`): while the current name lies outside the root, replace
it by the tail of `os.path.split` and stop as soon as stripping no longer
changes it.  The loop is written with explicit fuel; `rebase_path` passes
enough fuel for it to run to completion (each strip shortens the name). -/
def rebaseLoop (root : String) : Nat → String → String → String
  | 0, _, name => name
  | fuel + 1, prev, name =>
    if outside_root root name then
      let n := splitTail name
      if n = prev then n else rebaseLoop root fuel n n
    else name

/-- The body of `Debomber.rebase_paths` for a single member name: run the
stripping loop starting with `prev_name = name`, then the final guard — if
the result still lies outside the root the Python code raises (`none`);
otherwise the rebased name is yielded. -/
def rebase_path (root name : String) : Option String :=
  let final := rebaseLoop root (name.length + 2) name name
  if outside_root root final then none else some final

/-- `Debomber.rebase_paths` applied to the whole member list: `none` when any
member raises. -/
def rebase_paths (root : String) (names : List String) : Option (List String) :=
  names.mapM (rebase_path root)

/-! ## Basic lemmas about the path primitives -/

theorem strStartsWith_iff (s p : String) :
    strStartsWith s p = true ↔ p.data <+: s.data := by
  simp [strStartsWith, List.isPrefixOf_iff_prefix]

theorem strStartsWith_slash_mem {s : String} (h : strStartsWith s "/" = true) :
    '/' ∈ s.data := by
  rw [strStartsWith_iff] at h
  exact h.subset (by simp)

theorem append_ne_right (a b : String) (ha : a.data ≠ []) : a ++ b ≠ b := by
  intro he
  have hd : (a ++ b).data = b.data := by rw [he]
  rw [String.data_append] at hd
  have hl := congrArg List.length hd
  simp only [List.length_append] at hl
  exact ha (List.length_eq_zero.mp (by omega))

theorem strStartsWith_ne_nil {s p : String} (hp : p.data ≠ [])
    (h : strStartsWith s p = true) : s.data ≠ [] := by
  rw [strStartsWith_iff] at h
  intro he
  rw [he] at h
  exact hp (List.prefix_nil.mp h)

/-- With an absolute root (as produced by `os.path.abspath`), the
`_outside_root` test is exactly the test that the name is absolute. -/
theorem outside_root_eq (root fn : String) (h : strStartsWith root "/" = true) :
    outside_root root fn = strStartsWith fn "/" := by
  have hroot : root.data ≠ [] := strStartsWith_ne_nil (by decide) h
  cases habs : strStartsWith fn "/" with
  | true => simp [outside_root, pjoin, habs]
  | false =>
    simp only [outside_root, pjoin, habs, Bool.false_eq_true, if_false]
    split
    · next =>
      rw [beq_eq_false_iff_ne]
      exact append_ne_right root fn hroot
    · next =>
      rw [beq_eq_false_iff_ne]
      have : (root ++ "/").data ≠ [] := by
        rw [String.data_append]; simp
      exact append_ne_right (root ++ "/") fn this

theorem splitTail_no_slash (p : String) : '/' ∉ (splitTail p).data := by
  intro h
  simp only [splitTail, List.mem_reverse] at h
  have := List.mem_takeWhile_imp h
  simp at this

theorem splitTail_not_abs (p : String) : strStartsWith (splitTail p) "/" = false := by
  cases h : strStartsWith (splitTail p) "/" with
  | false => rfl
  | true => exact absurd (strStartsWith_slash_mem h) (splitTail_no_slash p)

theorem splitTail_suffix (p : String) : (splitTail p).data <:+ p.data := by
  have h : p.data.reverse.takeWhile (fun c => c != '/') <+: p.data.reverse :=
    List.takeWhile_prefix _
  rw [← List.reverse_prefix]
  simpa [splitTail] using h

theorem rebaseLoop_notOutside (root : String) (fuel : Nat) (prev name : String)
    (h : outside_root root name = false) :
    rebaseLoop root (fuel + 1) prev name = name := by
  simp [rebaseLoop, h]

theorem rebaseLoop_step (root : String) (fuel : Nat) (prev name : String)
    (h : outside_root root name = true) (hne : splitTail name ≠ prev) :
    rebaseLoop root (fuel + 1) prev name =
      rebaseLoop root fuel (splitTail name) (splitTail name) := by
  simp [rebaseLoop, h, hne]

/-- Full characterisation of `rebase_path` under an absolute root: it never
raises, leaves a relative name unchanged, and reduces an absolute name to
the tail of `os.path.split` in a single strip. -/
theorem rebase_path_eq (root name : String) (h : strStartsWith root "/" = true) :
    rebase_path root name =
      some (if strStartsWith name "/" = true then splitTail name else name) := by
  cases habs : strStartsWith name "/" with
  | false =>
    have hout : outside_root root name = false := by
      rw [outside_root_eq root name h, habs]
    have e : rebaseLoop root (name.length + 2) name name = name :=
      rebaseLoop_notOutside root (name.length + 1) name name hout
    simp [rebase_path, e, hout]
  | true =>
    have hout : outside_root root name = true := by
      rw [outside_root_eq root name h, habs]
    have hne : splitTail name ≠ name := by
      intro he
      have : '/' ∈ (splitTail name).data := by
        rw [he]; exact strStartsWith_slash_mem habs
      exact splitTail_no_slash name this
    have hout2 : outside_root root (splitTail name) = false := by
      rw [outside_root_eq root _ h]; exact splitTail_not_abs name
    have e1 : rebaseLoop root (name.length + 2) name name =
        rebaseLoop root (name.length + 1) (splitTail name) (splitTail name) :=
      rebaseLoop_step root (name.length + 1) name name hout hne
    have e2 : rebaseLoop root (name.length + 1) (splitTail name) (splitTail name) =
        splitTail name :=
      rebaseLoop_notOutside root name.length (splitTail name) (splitTail name) hout2
    simp [rebase_path, e1, e2, hout2]

/-! ## Claim theorems: C6 and C10 -/

/-- **C6**: `rebase` is idempotent — for every member path, applying the
per-path rebase to a path that rebase has already returned (an
already-normalized path) returns that same path unchanged. -/
theorem rebase_idempotent (root name r : String)
    (hroot : strStartsWith root "/" = true)
    (h : rebase_path root name = some r) : rebase_path root r = some r := by
  rw [rebase_path_eq root name hroot] at h
  have hr : strStartsWith r "/" = false := by
    cases habs : strStartsWith name "/" with
    | true =>
      rw [habs] at h
      simp only [if_true, Option.some.injEq] at h
      rw [← h]; exact splitTail_not_abs name
    | false =>
      rw [habs] at h
      simp only [Bool.false_eq_true, if_false, Option.some.injEq] at h
      rw [← h]; exact habs
  rw [rebase_path_eq root r hroot, hr]
  simp

/-- Witness for C6 at a concrete input: rebasing `/etc/passwd` under root
`/r` yields `passwd`, and rebasing `passwd` again is the identity. -/
theorem rebase_idempotent_witness :
    rebase_path "/r" "/etc/passwd" = some "passwd" ∧
    rebase_path "/r" "passwd" = some "passwd" :=
  ⟨by decide, rebase_idempotent "/r" "/etc/passwd" "passwd" (by decide) (by decide)⟩

/-- **C10**: under an absolute root, `rebase_paths` yields for every member
path either the input unchanged (when the path is not absolute) or the
final path component — a suffix of the input — when it is absolute; in
particular it never reaches the `Could not strip path prefix` raise
(the result is always `some _`). -/
theorem rebase_path_total (root name : String)
    (hroot : strStartsWith root "/" = true) :
    rebase_path root name =
      some (if strStartsWith name "/" = true then splitTail name else name) ∧
    (splitTail name).data <:+ name.data :=
  ⟨rebase_path_eq root name hroot, splitTail_suffix name⟩

/-- Witness for C10 at a concrete input. -/
theorem rebase_path_total_witness :
    rebase_path "/r" "/etc/passwd" =
      some (if strStartsWith "/etc/passwd" "/" = true then splitTail "/etc/passwd"
            else "/etc/passwd") ∧
    (splitTail "/etc/passwd").data <:+ "/etc/passwd".data :=
  rebase_path_total "/r" "/etc/passwd" (by decide)

/-! ## `posixpath.normpath` / `abspath` (used by `Debomber.extract` and to
express "resolves outside the root") -/

/-- Split a character list at `/`, with `str.split("/")` semantics: the empty
list splits to `[[]]`, and a leading, trailing or doubled slash produces an
empty segment. -/
def splitSlash : List Char → List (List Char)
  | [] => [[]]
  | c :: cs =>
    match splitSlash cs with
    | [] => [[c]]
    | h :: t => if c = '/' then [] :: h :: t else (c :: h) :: t

/-- The segment-stack pass of `posixpath.normpath` on an absolute path:
empty and `.` segments are dropped, `..` pops the previously kept segment
(and is simply dropped at the root).  `acc` holds the kept segments in
reverse order. -/
def normStack (acc : List (List Char)) : List (List Char) → List (List Char)
  | [] => acc.reverse
  | s :: rest =>
    if s = [] ∨ s = ['.'] then normStack acc rest
    else if s = ['.', '.'] then normStack (acc.drop 1) rest
    else normStack (s :: acc) rest

/-- Rejoin kept segments into a `/`-rooted path. -/
def joinAbs (segs : List (List Char)) : List Char :=
  segs.foldl (fun acc s => acc ++ '/' :: s) []

/-- Translation of `posixpath.normpath`, restricted to absolute paths (the
only way the repository reaches it): collapse `.`, `..` and empty segments;
an input that collapses away entirely normalises to `/`. -/
def normpathAbs (p : String) : String :=
  match normStack [] (splitSlash p.data) with
  | [] => "/"
  | segs => String.mk (joinAbs segs)

/-- Translation of `posixpath.abspath`: join with the working directory and
normalise. -/
def abspath (cwd p : String) : String := normpathAbs (pjoin cwd p)

/-! ## Claim theorem: C2 -/

/-- **C2** (code bug): the claim — and the docstrings of `_outside_root`
("Returns true if fn is a path lying outside self.root") and `rebase_paths`
("Rewrites filenames ... so that they refer to a path within the self.root
directory") — promise that a `..`-escaping member path is reduced to its
basename so that the rebased path stays under the root.  But `_outside_root`
only detects absolute paths, so the traversal path `../../etc/passwd` is
yielded unchanged and, joined to root `/home/user/work`, resolves to
`/home/etc/passwd`, outside the root.  The absolute-path half of the claim
does hold: `/etc/passwd` rebases to `passwd`. -/
theorem rebase_traversal_escape :
    rebase_path "/home/user/work" "../../etc/passwd" = some "../../etc/passwd" ∧
    normpathAbs (pjoin "/home/user/work" "../../etc/passwd") = "/home/etc/passwd" ∧
    strStartsWith "/home/etc/passwd" "/home/user/work/" = false ∧
    "/home/etc/passwd" ≠ "/home/user/work" ∧
    rebase_path "/home/user/work" "/etc/passwd" = some "passwd" := by
  refine ⟨?_, ?_, ?_, ?_, ?_⟩ <;> decide

/-! ## `Debomber.is_bomb` (src/debomb.py) -/

/-- `Debomber.is_bomb` from `src/debomb.py`: true when there are at least two
member names and `os.path.commonprefix` of the names is the empty string. -/
def is_bomb (names : List String) : Bool :=
  if 1 < names.length ∧ commonPre names = "" then true else false

/-- Stated from the claim's words (not from the code), for comparison: the
longest common path-prefix of the member paths computed **over path
segments**. -/
def segCommonPre_spec (names : List String) : List (List Char) :=
  match names with
  | [] => []
  | x :: xs => xs.foldl (fun a b => lcpList a (splitSlash b.data)) (splitSlash x.data)

theorem lcpList_pre {α : Type} [DecidableEq α] {d a b : List α}
    (ha : d <+: a) (hb : d <+: b) : d <+: lcpList a b := by
  induction d generalizing a b with
  | nil => exact List.nil_prefix
  | cons x xs ih =>
    obtain ⟨ta, rfl⟩ := ha
    obtain ⟨tb, rfl⟩ := hb
    simp only [List.cons_append, lcpList, if_pos]
    exact (List.prefix_cons_inj x).mpr
      (ih (List.prefix_append xs ta) (List.prefix_append xs tb))

theorem foldl_lcp_pre (d : List Char) (xs : List String) :
    ∀ acc : List Char, d <+: acc → (∀ n ∈ xs, d <+: n.data) →
      d <+: xs.foldl (fun a b => lcpList a b.data) acc := by
  induction xs with
  | nil => intro acc h _; simpa using h
  | cons y ys ih =>
    intro acc hacc hall
    simp only [List.foldl_cons]
    exact ih _ (lcpList_pre hacc (hall y (by simp))) (fun n hn => hall n (by simp [hn]))

/-! ## Claim theorems: C1 -/

/-- **C1 counterexample**: the member paths `ab/x` and `ac/y` share no common
path segment (their segment-wise common prefix is empty) and there are two
of them, so the claim requires `is_bomb` to return true; but
`os.path.commonprefix` works character-wise and returns `"a"`, so the code
returns false. -/
theorem is_bomb_segment_counterexample :
    is_bomb ["ab/x", "ac/y"] = false ∧
    segCommonPre_spec ["ab/x", "ac/y"] = [] ∧
    1 < (["ab/x", "ac/y"] : List String).length ∧
    commonPre ["ab/x", "ac/y"] = "a" := by
  refine ⟨?_, ?_, ?_, ?_⟩ <;> decide

/-- **C1 (amended)**: `is_bomb` returns true iff there are at least two
member paths and their longest common **raw string** prefix (character-wise,
not segment-wise) is empty; in particular a single-member archive, or an
archive whose members all share a nonempty leading string — e.g. all nest
under one shared top-level directory — is not a bomb. -/
theorem is_bomb_spec (names : List String) :
    (is_bomb names = true ↔ 1 < names.length ∧ commonPre names = "") ∧
    (∀ n : String, names = [n] → is_bomb names = false) ∧
    (∀ d : String, d ≠ "" → (∀ n ∈ names, strStartsWith n d = true) →
      is_bomb names = false) := by
  refine ⟨by simp [is_bomb], ?_, ?_⟩
  · intro n hn
    subst hn
    simp [is_bomb]
  · intro d hd hall
    cases names with
    | nil => simp [is_bomb]
    | cons x xs =>
      have hx : d.data <+: x.data := by
        rw [← strStartsWith_iff]; exact hall x (by simp)
      have hxs : ∀ n ∈ xs, d.data <+: n.data := by
        intro n hn
        rw [← strStartsWith_iff]; exact hall n (by simp [hn])
      have hpre : d.data <+: (commonPre (x :: xs)).data := by
        simpa [commonPre] using foldl_lcp_pre d.data xs x.data hx hxs
      have hne : commonPre (x :: xs) ≠ "" := by
        intro he
        rw [he] at hpre
        have hdn : d.data = [] := List.prefix_nil.mp hpre
        exact hd (String.ext hdn)
      simp [is_bomb, hne]

/-- Witness for C1 (amended) at concrete inputs: a single-member archive and
a shared-top-directory archive are both not bombs. -/
theorem is_bomb_spec_witness :
    is_bomb ["readme.txt"] = false ∧ is_bomb ["top/a", "top/b"] = false :=
  ⟨(is_bomb_spec ["readme.txt"]).2.1 "readme.txt" rfl,
   (is_bomb_spec ["top/a", "top/b"]).2.2 "top/" (by decide) (by decide)⟩

/-! ## `Debomber.has_exploded` (src/debomber.py) -/

/-- Result of `Debomber.has_exploded`: the Python method returns `True` (for
a full explosion — or any explosion at all when the `partial` flag is set),
`False` (nothing exploded), or the list of member names that were **not**
found under the root. -/
inductive ExplodedResult : Type
  | positive : ExplodedResult
  | negative : ExplodedResult
  | missing (files : List String) : ExplodedResult
deriving DecidableEq

/-- The scanning loop of `has_exploded`: `files` starts as a copy of the
member list and, for each member of another copy whose joined path exists,
`list.remove` deletes the first matching occurrence from `files`. -/
def removeLoop (ex : String → Bool) (root : String) :
    List String → List String → List String
  | [], files => files
  | fn :: rest, files =>
    removeLoop ex root rest (if ex (pjoin root fn) then files.erase fn else files)

/-- `Debomber.has_exploded` from `src/debomber.py`, over an abstract
filesystem-existence test `ex` (the model of `os.path.exists`). -/
def has_exploded (names : List String) (root : String) (partFlag : Bool)
    (ex : String → Bool) : ExplodedResult :=
  let files := removeLoop ex root names names
  let found := names.length - files.length
  if partFlag ∧ 0 < found then .positive
  else if found = names.length then .positive
  else if found = 0 then .negative
  else .missing files

theorem removeLoop_invariant (ex : String → Bool) (root : String) :
    ∀ (todo pre : List String), (∀ n ∈ pre, ex (pjoin root n) = false) →
      removeLoop ex root todo (pre ++ todo) =
        pre ++ todo.filter (fun n => !ex (pjoin root n)) := by
  intro todo
  induction todo with
  | nil => intro pre _; simp [removeLoop]
  | cons fn rest ih =>
    intro pre hpre
    cases hfn : ex (pjoin root fn) with
    | true =>
      have hnot : fn ∉ pre := by
        intro hmem
        rw [hpre fn hmem] at hfn
        exact Bool.false_ne_true hfn
      have herase : (pre ++ fn :: rest).erase fn = pre ++ rest := by
        rw [List.erase_append_right _ hnot, List.erase_cons_head]
      simp only [removeLoop, hfn, if_pos, herase, List.filter_cons, Bool.not_true,
        ih pre hpre]
      simp
    | false =>
      have hstep : pre ++ fn :: rest = (pre ++ [fn]) ++ rest := by simp
      have hpre' : ∀ n ∈ pre ++ [fn], ex (pjoin root n) = false := by
        intro n hn
        rcases List.mem_append.mp hn with h | h
        · exact hpre n h
        · simp only [List.mem_singleton] at h; rw [h]; exact hfn
      simp only [removeLoop, hfn, Bool.false_eq_true, if_false, hstep,
        ih (pre ++ [fn]) hpre', List.filter_cons, Bool.not_false]
      simp

theorem removeLoop_eq_filter (ex : String → Bool) (root : String)
    (names : List String) :
    removeLoop ex root names names = names.filter (fun n => !ex (pjoin root n)) := by
  have := removeLoop_invariant ex root names [] (by simp)
  simpa using this

/-! ## Claim theorems: C3 and C9 -/

/-- **C3 counterexample**: on the empty member list no member path exists
under the root, yet `has_exploded` returns the positive full-explosion
result rather than NONE, because zero found members equals the zero member
count — so "NONE exactly when no member path exists under root" fails at
the empty list. -/
theorem has_exploded_empty_counterexample :
    has_exploded [] "/r" false (fun _ => false) = ExplodedResult.positive ∧
    ([] : List String).all (fun n => !(fun (_ : String) => false) (pjoin "/r" n)) = true := by
  constructor
  · decide
  · rfl

/-- Shared characterisation: for a nonempty member list, `has_exploded`
returns the negative result exactly when no member path exists under the
root, whatever the `partial` flag. -/
theorem has_exploded_neg_iff (names : List String) (root : String)
    (partFlag : Bool) (ex : String → Bool) (hne : names ≠ []) :
    (has_exploded names root partFlag ex = ExplodedResult.negative ↔
      ∀ n ∈ names, ex (pjoin root n) = false) := by
  have hlen : names.length =
      (names.filter (fun n => ex (pjoin root n))).length +
      (names.filter (fun n => !ex (pjoin root n))).length :=
    List.length_eq_length_filter_add _
  have hfound : names.length - (removeLoop ex root names names).length =
      (names.filter (fun n => ex (pjoin root n))).length := by
    rw [removeLoop_eq_filter]; omega
  have hE : (0 < (names.filter (fun n => ex (pjoin root n))).length ↔
      ∃ n ∈ names, ex (pjoin root n) = true) := by
    rw [List.length_pos]
    constructor
    · intro h
      rcases List.exists_mem_of_ne_nil _ h with ⟨n, hn⟩
      have := List.mem_filter.mp hn
      exact ⟨n, this.1, this.2⟩
    · rintro ⟨n, hn, hex⟩ hnil
      have : n ∈ names.filter (fun n => ex (pjoin root n)) :=
        List.mem_filter.mpr ⟨hn, hex⟩
      simp [hnil] at this
  have h0 : ((names.filter (fun n => ex (pjoin root n))).length = 0 ↔
      ∀ n ∈ names, ex (pjoin root n) = false) := by
    rw [List.length_eq_zero, List.filter_eq_nil_iff]
    constructor
    · intro h n hn
      have := h n hn
      simpa using this
    · intro h n hn
      simp [h n hn]
  have hlpos : 0 < names.length := List.length_pos.mpr hne
  simp only [has_exploded, hfound]
  constructor
  · intro h
    by_contra hnone
    push_neg at hnone
    obtain ⟨n, hn, hx⟩ := hnone
    have hEx : ∃ m ∈ names, ex (pjoin root m) = true :=
      ⟨n, hn, Bool.ne_false_iff.mp hx⟩
    have hpos : 0 < (names.filter (fun n => ex (pjoin root n))).length := hE.mpr hEx
    by_cases hp : partFlag = true
    · rw [if_pos ⟨hp, hpos⟩] at h
      exact absurd h (by simp)
    · rw [if_neg (fun hc => hp hc.1)] at h
      by_cases hAll : (names.filter (fun n => ex (pjoin root n))).length = names.length
      · rw [if_pos hAll] at h
        exact absurd h (by simp)
      · rw [if_neg hAll, if_neg (by omega)] at h
        exact absurd h (by simp)
  · intro h
    have hz : (names.filter (fun n => ex (pjoin root n))).length = 0 := h0.mpr h
    rw [if_neg (fun hc => absurd hc.2 (by omega)), if_neg (by omega), if_pos hz]

/-- **C3 (amended)**: for every **nonempty** member list, `has_exploded`
returns the positive result exactly when every member path exists under the
root (`partial` unset); NONE exactly when no member path exists; otherwise
the list of missing members (`partial` unset); and with the `partial` flag
set a partial explosion already counts as a positive detection (the
positive result is returned exactly when some member exists). -/
theorem has_exploded_spec (names : List String) (root : String) (partFlag : Bool)
    (ex : String → Bool) (hne : names ≠ []) :
    (partFlag = false →
      (has_exploded names root false ex = ExplodedResult.positive ↔
        ∀ n ∈ names, ex (pjoin root n) = true)) ∧
    (has_exploded names root partFlag ex = ExplodedResult.negative ↔
      ∀ n ∈ names, ex (pjoin root n) = false) ∧
    (partFlag = false → ∀ l : List String,
      (has_exploded names root false ex = ExplodedResult.missing l ↔
        (∃ n ∈ names, ex (pjoin root n) = true) ∧
        ¬(∀ n ∈ names, ex (pjoin root n) = true) ∧
        l = names.filter (fun n => !ex (pjoin root n)))) ∧
    (partFlag = true →
      (has_exploded names root true ex = ExplodedResult.positive ↔
        ∃ n ∈ names, ex (pjoin root n) = true)) := by
  have hlen : names.length =
      (names.filter (fun n => ex (pjoin root n))).length +
      (names.filter (fun n => !ex (pjoin root n))).length :=
    List.length_eq_length_filter_add _
  have hfound : names.length - (removeLoop ex root names names).length =
      (names.filter (fun n => ex (pjoin root n))).length := by
    rw [removeLoop_eq_filter]; omega
  have hA : ((names.filter (fun n => ex (pjoin root n))).length = names.length ↔
      ∀ n ∈ names, ex (pjoin root n) = true) := by
    constructor
    · intro h n hn
      have heq := (List.filter_sublist names).eq_of_length h
      have := List.mem_filter.mp (heq ▸ hn)
      exact this.2
    · intro h
      rw [List.filter_eq_self.mpr h]
  have hE : (0 < (names.filter (fun n => ex (pjoin root n))).length ↔
      ∃ n ∈ names, ex (pjoin root n) = true) := by
    rw [List.length_pos]
    constructor
    · intro h
      rcases List.exists_mem_of_ne_nil _ h with ⟨n, hn⟩
      have := List.mem_filter.mp hn
      exact ⟨n, this.1, this.2⟩
    · rintro ⟨n, hn, hex⟩ hnil
      have : n ∈ names.filter (fun n => ex (pjoin root n)) :=
        List.mem_filter.mpr ⟨hn, hex⟩
      simp [hnil] at this
  have h0 : ((names.filter (fun n => ex (pjoin root n))).length = 0 ↔
      ∀ n ∈ names, ex (pjoin root n) = false) := by
    rw [List.length_eq_zero, List.filter_eq_nil_iff]
    constructor
    · intro h n hn
      have := h n hn
      simpa using this
    · intro h n hn
      simp [h n hn]
  have hlpos : 0 < names.length := List.length_pos.mpr hne
  refine ⟨?_, ?_, ?_, ?_⟩
  · intro hp
    simp only [has_exploded, hfound]
    constructor
    · intro h
      by_contra hall
      rw [if_neg (by simp), if_neg (fun hc => hall (hA.mp hc))] at h
      split at h
      · exact absurd h (by simp)
      · exact absurd h (by simp)
    · intro h
      rw [if_neg (by simp), if_pos (hA.mpr h)]
  · exact has_exploded_neg_iff names root partFlag ex hne
  · intro hp l
    simp only [has_exploded, hfound]
    constructor
    · intro h
      by_cases hEx : ∃ n ∈ names, ex (pjoin root n) = true
      · by_cases hall : ∀ n ∈ names, ex (pjoin root n) = true
        · rw [if_neg (by simp), if_pos (hA.mpr hall)] at h
          exact absurd h (by simp)
        · have hpos := hE.mpr hEx
          rw [if_neg (by simp), if_neg (fun hc => hall (hA.mp hc)),
            if_neg (by omega)] at h
          refine ⟨hEx, hall, ?_⟩
          injection h with hh
          rw [← hh, removeLoop_eq_filter]
      · have hz : (names.filter (fun n => ex (pjoin root n))).length = 0 := by
          rw [h0]
          intro n hn
          cases hx : ex (pjoin root n) with
          | false => rfl
          | true => exact absurd ⟨n, hn, hx⟩ hEx
        rw [if_neg (fun hc => absurd hc.2 (by omega)), if_neg (by omega),
          if_pos hz] at h
        exact absurd h (by simp)
    · rintro ⟨hEx, hall, rfl⟩
      have hpos := hE.mpr hEx
      rw [if_neg (by simp), if_neg (fun hc => hall (hA.mp hc)), if_neg (by omega),
        removeLoop_eq_filter]
  · intro hp
    simp only [has_exploded, hfound]
    constructor
    · intro h
      by_contra hEx
      have hz : (names.filter (fun n => ex (pjoin root n))).length = 0 := by
        rw [h0]
        intro n hn
        cases hx : ex (pjoin root n) with
        | false => rfl
        | true => exact absurd ⟨n, hn, hx⟩ hEx
      rw [if_neg (by simp [hz]), if_neg (by omega), if_pos hz] at h
      exact absurd h (by simp)
    · intro h
      exact if_pos ⟨trivial, hE.mpr h⟩

/-- Witness for C3 (amended): the spec scenario — members `a.txt`, `b.txt`,
`c/d.txt` with only the first two present under root `/w` — yields the
missing-list result `["c/d.txt"]`. -/
theorem has_exploded_spec_witness :
    has_exploded ["a.txt", "b.txt", "c/d.txt"] "/w" false
        (fun p => p == "/w/a.txt" || p == "/w/b.txt") =
      ExplodedResult.missing ["c/d.txt"] :=
  (((has_exploded_spec ["a.txt", "b.txt", "c/d.txt"] "/w" false
      (fun p => p == "/w/a.txt" || p == "/w/b.txt") (by decide)).2.2.1 rfl
      ["c/d.txt"]).mpr (by refine ⟨⟨"a.txt", by decide, by decide⟩, by decide, by decide⟩))

/-- **C9**: for an empty member list, `has_exploded` returns the positive
full-explosion result regardless of the filesystem state, the root and the
`partial` flag, because zero found members equals the zero member count. -/
theorem has_exploded_empty (root : String) (partFlag : Bool) (ex : String → Bool) :
    has_exploded [] root partFlag ex = ExplodedResult.positive := by
  simp [has_exploded, removeLoop]

/-! ## `Debomber.extract` (src/debomb.py) -/

/-- The unsafe-path test inside `Debomber.extract` (`src/debomb.py`): member
`name` is appended to `badfiles` when
`os.path.commonprefix([path, os.path.abspath(os.path.join(path, name))])`
differs from `path`. -/
def badfile (cwd path name : String) : Bool :=
  commonPre [path, abspath cwd (pjoin path name)] != path

/-- Stated from the claim's words (not from the code), for comparison:
extracting member `name` under destination `path` places it at
`abspath(join(path, name))`; this lands **outside** the destination when the
resolved location is neither the resolved destination itself nor strictly
below it. -/
def landsOutside_spec (cwd path name : String) : Bool :=
  let dest := abspath cwd path
  let placed := abspath cwd (pjoin path name)
  !(placed == dest || strStartsWith placed (dest ++ "/"))

/-- `Debomber.extract` control flow (`src/debomb.py`) with `warn` set:
compute `badfiles`; when the list is nonempty, show the names and prompt —
the loop repeats until the answer is `y` or `n`, and `n` returns without
extracting.  The model records whether `self.cfile.extractall(path)` is
reached; `declines` is true when the user's first definite answer is `n`. -/
def extract_invokes_extractall (cwd path : String) (names : List String)
    (warn declines : Bool) : Bool :=
  if warn then
    let badfiles := names.filter (badfile cwd path)
    if badfiles.isEmpty then true
    else if declines then false else true
  else true

theorem lcpList_eq_left_iff {α : Type} [DecidableEq α] (a b : List α) :
    lcpList a b = a ↔ a <+: b := by
  constructor
  · intro h
    induction a generalizing b with
    | nil => exact List.nil_prefix
    | cons x xs ih =>
      cases b with
      | nil => simp [lcpList] at h
      | cons y ys =>
        simp only [lcpList] at h
        split at h
        · next heq =>
          subst heq
          simp only [List.cons.injEq, true_and] at h
          exact (List.prefix_cons_inj x).mpr (ih ys h)
        · exact absurd h (by simp)
  · intro h
    induction a generalizing b with
    | nil => simp [lcpList]
    | cons x xs ih =>
      obtain ⟨t, rfl⟩ := h
      simp only [List.cons_append, lcpList, if_pos]
      exact congrArg (fun l => x :: l) (ih (xs ++ t) (List.prefix_append xs t))

/-! ## Claim theorems: C7 and C8 -/

/-- **C7 counterexample**: with destination `/home/user`, extracting member
`../user2/secret` resolves to `/home/user2/secret`, outside the
destination; but the character-wise `os.path.commonprefix` of destination
and resolved path equals the destination, so the member is **not** flagged
— refuting the claimed "if and only if". -/
theorem badfile_counterexample :
    badfile "/" "/home/user" "../user2/secret" = false ∧
    landsOutside_spec "/" "/home/user" "../user2/secret" = true ∧
    abspath "/" (pjoin "/home/user" "../user2/secret") = "/home/user2/secret" := by
  refine ⟨by decide, by decide, by decide⟩

/-- **C7 (amended)**: for an absolute, already-normalised destination path
(without trailing slash semantics issues), every member flagged as unsafe
would indeed land outside the destination; the claimed converse fails —
members landing outside can escape flagging when their resolved path shares
the destination as a raw string prefix (`badfile_counterexample`), and for
a relative destination even safe members are flagged. -/
theorem badfile_sound (cwd path name : String)
    (habs : strStartsWith path "/" = true)
    (hnorm : normpathAbs path = path)
    (h : badfile cwd path name = true) :
    landsOutside_spec cwd path name = true := by
  have hdest : abspath cwd path = path := by
    rw [abspath]
    have : pjoin cwd path = path := by simp [pjoin, habs]
    rw [this, hnorm]
  have hne : commonPre [path, abspath cwd (pjoin path name)] ≠ path := by
    simpa [badfile, bne_iff_ne] using h
  set placed := abspath cwd (pjoin path name) with hplaced
  have hnpre : ¬ path.data <+: placed.data := by
    intro hpre
    apply hne
    have : lcpList path.data placed.data = path.data :=
      (lcpList_eq_left_iff _ _).mpr hpre
    simp only [commonPre, List.foldl_cons, List.foldl_nil]
    rw [this]
  simp only [landsOutside_spec, hdest, ← hplaced, Bool.not_eq_true',
    Bool.or_eq_false_iff]
  constructor
  · rw [beq_eq_false_iff_ne]
    intro he
    exact hnpre (he ▸ List.prefix_refl _)
  · cases hsw : strStartsWith placed (path ++ "/") with
    | false => rfl
    | true =>
      exfalso
      rw [strStartsWith_iff] at hsw
      apply hnpre
      calc path.data <+: (path ++ "/").data := by
            rw [String.data_append]; exact List.prefix_append _ _
        _ <+: placed.data := hsw

/-- Witness for C7 (amended): the absolute member `/etc/x` under destination
`/home/user` is flagged, and indeed lands outside the destination. -/
theorem badfile_sound_witness :
    landsOutside_spec "/" "/home/user" "/etc/x" = true :=
  badfile_sound "/" "/home/user" "/etc/x" (by decide) (by decide) (by decide)

/-- **C8**: when prompting is enabled, unsafe paths were detected
(`badfiles` nonempty) and the user declines, `extract` returns without ever
invoking the archive's `extractall` — a clean no-op, so no files are
written. -/
theorem extract_decline_aborts (cwd path : String) (names : List String)
    (hbad : names.filter (badfile cwd path) ≠ []) :
    extract_invokes_extractall cwd path names true true = false := by
  simp only [extract_invokes_extractall, if_pos]
  rw [if_neg (by simpa [List.isEmpty_iff] using hbad)]

/-- Witness for C8: a traversal member under a relative destination is
flagged, and declining prevents `extractall`. -/
theorem extract_decline_aborts_witness :
    extract_invokes_extractall "/cwd" "." ["../x"] true true = false :=
  extract_decline_aborts "/cwd" "." ["../x"] (by decide)

/-! ## Filesystem model and `Debomber.clean` (src/debomber.py) -/

/-- A filesystem snapshot: the current regular-file paths and the current
directory paths. -/
structure FS : Type where
  files : List String
  dirs : List String
deriving DecidableEq

/-- Model of `os.path.exists`: the path names a current file or directory. -/
def fsExists (fs : FS) (p : String) : Bool :=
  decide (p ∈ fs.files) || decide (p ∈ fs.dirs)

/-- Failure causes for a single `shutil.move`, all surfaced as `IOError` by
the Python runtime in the situations `clean` encounters: the source path is
absent, or the directory that should contain the destination does not
exist.  The model restricts `shutil.move` to the plain-rename cases `clean`
relies on, and reports the cases with subtler Python semantics (directory
source, pre-existing destination) as distinct errors so that no theorem
silently depends on them. -/
inductive MoveErr : Type
  | srcMissing : MoveErr
  | destParentMissing : MoveErr
  | destExists : MoveErr
  | srcIsDir : MoveErr
deriving DecidableEq

/-- The directory containing `p`: everything before the last `/` (the head
component of `os.path.split`), with `/` for a top-level entry. -/
def parentDir (p : String) : String :=
  let h := String.mk (((p.data.reverse.dropWhile (fun c => c != '/')).drop 1).reverse)
  if h = "" then "/" else h

/-- Model of `shutil.move src dst` as the plain rename `clean` relies on:
the source file must exist, the destination's containing directory must
exist, and the destination must be fresh. -/
def moveFile (fs : FS) (src dst : String) : Except MoveErr FS :=
  if src ∈ fs.dirs then .error .srcIsDir
  else if src ∉ fs.files then .error .srcMissing
  else if parentDir dst ∉ fs.dirs then .error .destParentMissing
  else if fsExists fs dst then .error .destExists
  else .ok ⟨dst :: fs.files.erase src, fs.dirs⟩

/-- The root part of `posixpath.splitext` on a basename: strip from the last
`.`, except that a name whose characters before that `.` are all dots is
not split. -/
def splitextRoot (s : String) : String :=
  let l := s.data
  let ext := l.reverse.takeWhile (fun c => c != '.')
  if ext.length = l.length then s
  else
    let stem := l.take (l.length - ext.length - 1)
    if stem.all (fun c => c == '.') then s
    else String.mk stem

/-- `Debomber._make_extraction_dir` from `src/debomber.py`: the containment
directory is `root/<archive basename without extension>`, created with
`os.mkdir` when absent and reused otherwise. -/
def mkExtractionDir (fs : FS) (root archive_fn : String) : FS × String :=
  let dest := pjoin root (splitextRoot archive_fn)
  if fsExists fs dest then (fs, dest)
  else ({ fs with dirs := dest :: fs.dirs }, dest)

/-- The move loop of `Debomber.clean`: move `root/name` to `dest/name` for
every member name; an `IOError` is ignored when the `partial` flag is set
(`except IOError: if self.partial: pass`) and re-raised otherwise. -/
def cleanLoop (root dest : String) (partFlag : Bool) :
    FS → List String → Except MoveErr FS
  | fs, [] => .ok fs
  | fs, n :: rest =>
    match moveFile fs (pjoin root n) (pjoin dest n) with
    | .ok fs' => cleanLoop root dest partFlag fs' rest
    | .error e => if partFlag then cleanLoop root dest partFlag fs rest else .error e

/-- `Debomber.clean` from `src/debomber.py`: create or reuse the containment
directory, then run the move loop over the member names. -/
def clean (fs : FS) (root archive_fn : String) (partFlag : Bool)
    (names : List String) : Except MoveErr FS :=
  let md := mkExtractionDir fs root archive_fn
  cleanLoop root md.2 partFlag md.1 names

theorem fsExists_false_iff (fs : FS) (p : String) :
    fsExists fs p = false ↔ p ∉ fs.files ∧ p ∉ fs.dirs := by
  simp [fsExists]

theorem cleanLoop_true_ok (root dest : String) :
    ∀ (todo : List String) (fsc : FS),
      ∃ fs' : FS, cleanLoop root dest true fsc todo = .ok fs' := by
  intro todo
  induction todo with
  | nil => intro fsc; exact ⟨fsc, rfl⟩
  | cons n rest ih =>
    intro fsc
    cases hmv : moveFile fsc (pjoin root n) (pjoin dest n) with
    | ok fs2 =>
      rcases ih fs2 with ⟨fs', hfs'⟩
      exact ⟨fs', by simp [cleanLoop, hmv, hfs']⟩
    | error e =>
      rcases ih fsc with ⟨fs', hfs'⟩
      exact ⟨fs', by simp [cleanLoop, hmv, hfs']⟩

theorem cleanLoop_false_error (root dest : String) :
    ∀ (todo : List String) (fsc : FS) (e : MoveErr),
      cleanLoop root dest false fsc todo = .error e →
      ∃ n ∈ todo, ∃ fsmid : FS,
        moveFile fsmid (pjoin root n) (pjoin dest n) = .error e := by
  intro todo
  induction todo with
  | nil => intro fsc e h; exact absurd h (by simp [cleanLoop])
  | cons n rest ih =>
    intro fsc e h
    cases hmv : moveFile fsc (pjoin root n) (pjoin dest n) with
    | ok fs2 =>
      simp only [cleanLoop, hmv] at h
      rcases ih fs2 e h with ⟨m, hm, fsmid, hmid⟩
      exact ⟨m, by simp [hm], fsmid, hmid⟩
    | error e' =>
      simp only [cleanLoop, hmv, Bool.false_eq_true, if_false,
        Except.error.injEq] at h
      exact ⟨n, by simp, fsc, by rw [hmv, h]⟩

/-! ## Claim theorems: C4 -/

/-- **C4 counterexample**: with the `partial` flag set, the move of
`c/d.txt` fails with an `IOError` whose cause is **not** a missing source —
the source file `/r/c/d.txt` exists, it is the destination's parent
directory that is absent — yet `clean` swallows the failure and carries on
moving the remaining member instead of aborting, refuting "a move failure
is swallowed only when its cause is that the source file is absent". -/
theorem clean_swallow_counterexample :
    fsExists ⟨["/r/c/d.txt", "/r/b.txt"], ["/", "/r", "/r/c"]⟩ "/r/c/d.txt" = true ∧
    moveFile ⟨["/r/c/d.txt", "/r/b.txt"], ["/r/foo", "/", "/r", "/r/c"]⟩
        (pjoin "/r" "c/d.txt") (pjoin "/r/foo" "c/d.txt") =
      .error .destParentMissing ∧
    clean ⟨["/r/c/d.txt", "/r/b.txt"], ["/", "/r", "/r/c"]⟩ "/r" "foo.tar" true
        ["c/d.txt", "b.txt"] =
      .ok ⟨["/r/foo/b.txt", "/r/c/d.txt"], ["/r/foo", "/", "/r", "/r/c"]⟩ := by
  refine ⟨by rfl, by rfl, by rfl⟩

/-- **C4 (amended)**: during `clean`, when the `partial` flag is set *every*
move `IOError` is swallowed, regardless of its cause, and the loop always
runs to completion; when the flag is not set any move failure is fatal —
the loop stops at the failing member, surfaces that very error (which
always originates from some member's move), and the state produced by the
prior successful moves is kept. -/
theorem clean_error_spec (fs : FS) (root archive_fn : String)
    (names : List String) :
    (∃ fs' : FS, clean fs root archive_fn true names = .ok fs') ∧
    (∀ e : MoveErr, clean fs root archive_fn false names = .error e →
      ∃ n ∈ names, ∃ fsmid : FS,
        moveFile fsmid (pjoin root n)
          (pjoin (pjoin root (splitextRoot archive_fn)) n) = .error e) ∧
    (∀ (fsc : FS) (dest : String) (e : MoveErr) (n : String) (rest : List String),
      moveFile fsc (pjoin root n) (pjoin dest n) = .error e →
      cleanLoop root dest false fsc (n :: rest) = .error e) ∧
    (∀ (fsc fs2 : FS) (dest : String) (n : String) (rest : List String),
      moveFile fsc (pjoin root n) (pjoin dest n) = .ok fs2 →
      cleanLoop root dest false fsc (n :: rest) = cleanLoop root dest false fs2 rest) := by
  refine ⟨?_, ?_, ?_, ?_⟩
  · exact cleanLoop_true_ok root _ names _
  · intro e h
    have hdest : (mkExtractionDir fs root archive_fn).2 =
        pjoin root (splitextRoot archive_fn) := by
      rw [mkExtractionDir]
      split <;> rfl
    rw [clean] at h
    rw [hdest] at h
    exact cleanLoop_false_error root _ names _ e h
  · intro fsc dest e n rest h
    simp [cleanLoop, h]
  · intro fsc fs2 dest n rest h
    simp [cleanLoop, h]

/-- Witness for C4 (amended): with `partial` unset, a failing nested move
surfaces as an error originating from that member's move. -/
theorem clean_error_spec_witness :
    ∃ n ∈ ["c/d.txt"], ∃ fsmid : FS,
      moveFile fsmid (pjoin "/r" n) (pjoin (pjoin "/r" (splitextRoot "foo.tar")) n) =
        .error MoveErr.destParentMissing :=
  (clean_error_spec ⟨["/r/c/d.txt"], ["/", "/r", "/r/c"]⟩ "/r" "foo.tar"
      ["c/d.txt"]).2.1 MoveErr.destParentMissing (by rfl)

/-- Invariant of the `clean` move loop when every move succeeds as a plain
rename: the directory set is unchanged, the moved sources are gone from the
file set, and every surviving file is either an untouched original or one
of the new destinations. -/
theorem cleanLoop_all_ok (root dest : String) (pf : Bool) (fsD : List String) :
    ∀ (todo : List String) (fls : List String),
      fls.Nodup →
      (∀ n ∈ todo, pjoin root n ∈ fls) →
      (∀ n ∈ todo, pjoin dest n ∉ fls) →
      ((todo.map (fun n => pjoin root n)).Nodup) →
      ((todo.map (fun n => pjoin dest n)).Nodup) →
      (∀ n ∈ todo, parentDir (pjoin dest n) ∈ fsD) →
      (∀ n ∈ todo, pjoin root n ∉ fsD) →
      (∀ n ∈ todo, pjoin dest n ∉ fsD) →
      (∀ n ∈ todo, ∀ m ∈ todo, pjoin dest m ≠ pjoin root n) →
      ∃ fls' : List String,
        cleanLoop root dest pf ⟨fls, fsD⟩ todo = .ok ⟨fls', fsD⟩ ∧
        fls'.Nodup ∧
        (∀ n ∈ todo, pjoin root n ∉ fls') ∧
        (∀ p : String, p ∈ fls' →
          (p ∈ fls ∧ p ∉ todo.map (fun n => pjoin root n)) ∨
          p ∈ todo.map (fun n => pjoin dest n)) := by
  intro todo
  induction todo with
  | nil =>
    intro fls hnd _ _ _ _ _ _ _ _
    exact ⟨fls, rfl, hnd, by simp, fun p hp => Or.inl ⟨hp, by simp⟩⟩
  | cons n rest ih =>
    intro fls hnd hsrcF hdstF hsrcN hdstN hpar hsrcD hdstD hds
    have hsn : pjoin root n ∈ fls := hsrcF n (by simp)
    have hfse : fsExists ⟨fls, fsD⟩ (pjoin dest n) = false :=
      (fsExists_false_iff _ _).mpr ⟨hdstF n (by simp), hdstD n (by simp)⟩
    have hmv : moveFile ⟨fls, fsD⟩ (pjoin root n) (pjoin dest n) =
        .ok ⟨pjoin dest n :: fls.erase (pjoin root n), fsD⟩ := by
      rw [moveFile]
      rw [if_neg (hsrcD n (by simp))]
      rw [if_neg (by simp [hsn])]
      rw [if_neg (by simp [hpar n (by simp)])]
      rw [if_neg (by simp [hfse])]
    simp only [List.map_cons] at hsrcN hdstN
    have hsrcN' := hsrcN.of_cons
    have hdstN' := hdstN.of_cons
    have hsn_notin : pjoin root n ∉ rest.map (fun m => pjoin root m) :=
      (List.nodup_cons.mp hsrcN).1
    have hdn_notin : pjoin dest n ∉ rest.map (fun m => pjoin dest m) :=
      (List.nodup_cons.mp hdstN).1
    have hnd2 : (pjoin dest n :: fls.erase (pjoin root n)).Nodup := by
      refine List.nodup_cons.mpr ⟨?_, hnd.erase _⟩
      intro hmem
      exact hdstF n (by simp) (List.mem_of_mem_erase hmem)
    have hsrcF2 : ∀ m ∈ rest,
        pjoin root m ∈ pjoin dest n :: fls.erase (pjoin root n) := by
      intro m hm
      apply List.mem_cons_of_mem
      rw [hnd.mem_erase_iff]
      refine ⟨?_, hsrcF m (by simp [hm])⟩
      intro heq
      exact hsn_notin (by rw [← heq]; exact List.mem_map_of_mem _ hm)
    have hdstF2 : ∀ m ∈ rest,
        pjoin dest m ∉ pjoin dest n :: fls.erase (pjoin root n) := by
      intro m hm hmem
      rcases List.mem_cons.mp hmem with heq | hmem'
      · exact hdn_notin (by rw [← heq]; exact List.mem_map_of_mem _ hm)
      · exact hdstF m (by simp [hm]) (List.mem_of_mem_erase hmem')
    have hpar2 : ∀ m ∈ rest, parentDir (pjoin dest m) ∈ fsD :=
      fun m hm => hpar m (by simp [hm])
    have hsrcD2 : ∀ m ∈ rest, pjoin root m ∉ fsD :=
      fun m hm => hsrcD m (by simp [hm])
    have hdstD2 : ∀ m ∈ rest, pjoin dest m ∉ fsD :=
      fun m hm => hdstD m (by simp [hm])
    have hds2 : ∀ a ∈ rest, ∀ b ∈ rest, pjoin dest b ≠ pjoin root a :=
      fun a ha b hb => hds a (by simp [ha]) b (by simp [hb])
    rcases ih (pjoin dest n :: fls.erase (pjoin root n)) hnd2 hsrcF2 hdstF2
        hsrcN' hdstN' hpar2 hsrcD2 hdstD2 hds2 with ⟨fls', hok, hnd', hgone, hprop⟩
    refine ⟨fls', ?_, hnd', ?_, ?_⟩
    · simp only [cleanLoop, hmv]
      exact hok
    · intro m hm
      rcases List.mem_cons.mp hm with rfl | hm'
      · intro hmem
        rcases hprop _ hmem with ⟨hin2, _⟩ | hin
        · rcases List.mem_cons.mp hin2 with heq | hin3
          · exact hds m (by simp) m (by simp) heq.symm
          · exact (hnd.mem_erase_iff.mp hin3).1 rfl
        · rcases List.mem_map.mp hin with ⟨b, hb, hbe⟩
          exact hds m (by simp) b (by simp [hb]) hbe
      · exact hgone m hm'
    · intro p hp
      rcases hprop p hp with ⟨hin2, hnotin⟩ | hin
      · rcases List.mem_cons.mp hin2 with rfl | hin3
        · exact Or.inr (List.mem_map_of_mem _ (List.mem_cons_self n rest))
        · left
          refine ⟨List.mem_of_mem_erase hin3, ?_⟩
          simp only [List.map_cons, List.mem_cons]
          rintro (heq | hmem)
          · exact (hnd.mem_erase_iff.mp hin3).1 heq
          · exact hnotin hmem
      · right
        simp only [List.map_cons, List.mem_cons]
        exact Or.inr hin

/-! ## Claim theorems: C5 -/

/-- **C5 counterexample**: with the `partial` flag set, `clean` succeeds
(returns normally) although the single member's move failed and was
swallowed — the member file is still loose under the root, so the
subsequent `has_exploded` on the same root reports a positive detection,
not NONE. -/
theorem clean_then_exploded_counterexample :
    clean ⟨["/r/c/d.txt"], ["/", "/r", "/r/c"]⟩ "/r" "foo.tar" true ["c/d.txt"] =
      .ok ⟨["/r/c/d.txt"], ["/r/foo", "/", "/r", "/r/c"]⟩ ∧
    has_exploded ["c/d.txt"] "/r" true
        (fsExists ⟨["/r/c/d.txt"], ["/r/foo", "/", "/r", "/r/c"]⟩) =
      ExplodedResult.positive := by
  refine ⟨by rfl, by rfl⟩

/-- **C5 (amended)**: `clean` followed by `has_exploded` on the same root
returns NONE, provided the cleanup really succeeded move by move: the
member list is nonempty and collision-free, each member file is present
under the root, each destination is fresh with its parent directory
present, and no member path coincides with the containment directory's own
path or with another member's destination.  Without these provisos the
claim fails — see `clean_then_exploded_counterexample`, where `clean`
returns successfully yet a member is still loose under the root. -/
theorem clean_then_not_exploded (fs : FS) (root archive_fn : String)
    (partFlag : Bool) (names : List String)
    (hne : names ≠ [])
    (hnodupF : fs.files.Nodup)
    (hdestFresh : fsExists fs (pjoin root (splitextRoot archive_fn)) = false)
    (hsrcN : (names.map (fun n => pjoin root n)).Nodup)
    (hdstN : (names.map (fun n => pjoin (pjoin root (splitextRoot archive_fn)) n)).Nodup)
    (hsrcF : ∀ n ∈ names, pjoin root n ∈ fs.files)
    (hsrcD : ∀ n ∈ names, pjoin root n ∉ fs.dirs)
    (hparent : ∀ n ∈ names,
      parentDir (pjoin (pjoin root (splitextRoot archive_fn)) n) ∈
        pjoin root (splitextRoot archive_fn) :: fs.dirs)
    (hdstFresh : ∀ n ∈ names,
      fsExists fs (pjoin (pjoin root (splitextRoot archive_fn)) n) = false)
    (hdstNotDest : ∀ n ∈ names,
      pjoin (pjoin root (splitextRoot archive_fn)) n ≠
        pjoin root (splitextRoot archive_fn))
    (hsrcNotDest : ∀ n ∈ names,
      pjoin root n ≠ pjoin root (splitextRoot archive_fn))
    (hdstNotSrc : ∀ n ∈ names, ∀ m ∈ names,
      pjoin (pjoin root (splitextRoot archive_fn)) m ≠ pjoin root n) :
    ∃ fs' : FS, clean fs root archive_fn partFlag names = .ok fs' ∧
      has_exploded names root partFlag (fsExists fs') = ExplodedResult.negative := by
  have hstep : clean fs root archive_fn partFlag names =
      cleanLoop root (pjoin root (splitextRoot archive_fn)) partFlag
        ⟨fs.files, pjoin root (splitextRoot archive_fn) :: fs.dirs⟩ names := by
    simp [clean, mkExtractionDir, hdestFresh]
  rcases cleanLoop_all_ok root (pjoin root (splitextRoot archive_fn)) partFlag
      (pjoin root (splitextRoot archive_fn) :: fs.dirs) names fs.files hnodupF
      hsrcF (fun n hn => ((fsExists_false_iff _ _).mp (hdstFresh n hn)).1)
      hsrcN hdstN hparent
      (fun n hn => by
        simp only [List.mem_cons]
        rintro (heq | hmem)
        · exact hsrcNotDest n hn heq
        · exact hsrcD n hn hmem)
      (fun n hn => by
        simp only [List.mem_cons]
        rintro (heq | hmem)
        · exact hdstNotDest n hn heq
        · exact ((fsExists_false_iff _ _).mp (hdstFresh n hn)).2 hmem)
      hdstNotSrc with ⟨fls', hok, hnd', hgone, hprop⟩
  refine ⟨⟨fls', pjoin root (splitextRoot archive_fn) :: fs.dirs⟩, ?_, ?_⟩
  · rw [hstep, hok]
  · have hnone : ∀ n ∈ names,
        fsExists ⟨fls', pjoin root (splitextRoot archive_fn) :: fs.dirs⟩
          (pjoin root n) = false := by
      intro n hn
      rw [fsExists_false_iff]
      refine ⟨hgone n hn, ?_⟩
      simp only [List.mem_cons]
      rintro (heq | hmem)
      · exact hsrcNotDest n hn heq
      · exact hsrcD n hn hmem
    exact (has_exploded_neg_iff names root partFlag _ hne).mpr hnone

/-- Witness for C5 (amended): a two-member bomb exploded in `/r` is cleaned
into `/r/foo` and the root no longer shows an explosion. -/
theorem clean_then_not_exploded_witness :
    ∃ fs' : FS, clean ⟨["/r/a.txt", "/r/b.txt"], ["/", "/r"]⟩ "/r" "foo.tar" false
        ["a.txt", "b.txt"] = .ok fs' ∧
      has_exploded ["a.txt", "b.txt"] "/r" false (fsExists fs') =
        ExplodedResult.negative :=
  clean_then_not_exploded ⟨["/r/a.txt", "/r/b.txt"], ["/", "/r"]⟩ "/r" "foo.tar"
    false ["a.txt", "b.txt"] (by decide) (by decide) (by decide) (by decide)
    (by decide) (by decide) (by decide) (by decide) (by decide) (by decide)
    (by decide) (by decide)

end Debomb
